import Mathlib

/-!
Verification of the Journal Analyzer core (filtering, aggregation,
summarizer gateway, report assembly, report retrieval) against its
natural-language specification.

The Python sources (src/utils.py, src/report_builder.py, src/api.py) are
shallowly embedded below.  DataFrames become lists of entries, machine
strings become Lean strings (manipulated as character lists where the
Python code works character-wise), network and filesystem effects become
explicit parameters, and Python exceptions become Option results.
-/

/-- Whitespace test used by Python str.strip and str.split with no
separator.  Restricted to the ASCII whitespace characters that occur in
the data under analysis. -/
def isWsChar (c : Char) : Bool := c = ' ' || c = '\t' || c = '\n' || c = '\r'

/-- Python str.strip on a character list: drop leading and trailing
whitespace. -/
def pyStrip (s : List Char) : List Char :=
  ((s.dropWhile isWsChar).reverse.dropWhile isWsChar).reverse

/-- Python str.split with no separator: the maximal whitespace-free runs,
in order.  The accumulator holds the current run reversed. -/
def pyWordsAux : List Char → List Char → List (List Char)
  | [], acc => if acc.isEmpty then [] else [acc.reverse]
  | c :: cs, acc =>
    if isWsChar c then
      if acc.isEmpty then pyWordsAux cs [] else acc.reverse :: pyWordsAux cs []
    else pyWordsAux cs (c :: acc)

/-- Python str.split with no separator, on a string. -/
def pyWords (s : String) : List (List Char) := pyWordsAux s.toList []

/-- Calendar date as stored in the date column (pandas Timestamp date
part).  Comparison is the chronological lexicographic order used by
datetime.date comparison in filter_entries. -/
structure JDate where
  year : Nat
  month : Nat
  day : Nat
deriving DecidableEq, Repr

/-- Chronological order on dates (Python date comparison). -/
def JDate.leB (a b : JDate) : Bool :=
  decide (a.year < b.year ∨ (a.year = b.year ∧
    (a.month < b.month ∨ (a.month = b.month ∧ a.day ≤ b.day))))

/-- One journal entry: one DataFrame row with columns date, day_of_week,
time_of_day, text (utils.fetch_entries).  Text is taken to be a string
(the source guards NaN with na=False and fillna). -/
structure Entry where
  date : JDate
  day_of_week : String
  time_of_day : String
  text : String
deriving DecidableEq, Repr

/-! ## Filter Engine (src/utils.py filter_entries)

The keyword pattern built in filter_entries is
re.escape(phrase).replace(escaped star, dot-star) joined with the regex
or-bar, searched case-insensitively.  After escaping, every character of
the phrase is a literal except the star, which becomes dot-star: a
wildcard over characters other than the newline (Python dot does not
match a newline without DOTALL).  We embed each phrase as a token list
and give the Python regex search semantics directly. -/

/-- One token of a compiled keyword phrase: a literal character or the
star wildcard. -/
inductive Tok where
  | lit (c : Char)
  | star
deriving DecidableEq, Repr

/-- Case-insensitive character match (re.IGNORECASE). -/
def charCI (x c : Char) : Bool := x.toLower == c.toLower

/-- Dot-star scanning: hand the rest of the pattern the current suffix,
or consume one character that is not a newline and continue (Python dot
does not match a newline without DOTALL). -/
def starScan (f : List Char → Bool) : List Char → Bool
  | [] => f []
  | x :: xs => f (x :: xs) || ((x != '\n') && starScan f xs)

/-- Does some prefix of the character list match the token list?  This is
the regex engine anchored at one position: a literal consumes one
matching character; dot-star consumes zero or more non-newline
characters. -/
def matchHere : List Tok → List Char → Bool
  | [], _ => true
  | Tok.lit _ :: _, [] => false
  | Tok.lit c :: ts, x :: xs => charCI x c && matchHere ts xs
  | Tok.star :: ts, s => starScan (matchHere ts) s

/-- re.search of one phrase pattern: try every start position. -/
def wildSearch (ts : List Tok) : List Char → Bool
  | [] => matchHere ts []
  | s@(_ :: rest) => matchHere ts s || wildSearch ts rest

/-- Anchored match of the or-joined pattern: regex alternation tries the
branches in order at one position. -/
def altHere (alts : List (List Tok)) (s : List Char) : Bool :=
  alts.any (fun ts => matchHere ts s)

/-- re.search of the or-joined pattern built in filter_entries. -/
def altSearch (alts : List (List Tok)) : List Char → Bool
  | [] => altHere alts []
  | s@(_ :: rest) => altHere alts s || altSearch alts rest

/-- Compile one keyword phrase: re.escape makes every character literal,
then each escaped star becomes the dot-star wildcard. -/
def phraseToks (p : List Char) : List Tok :=
  p.map (fun c => if c == '*' then Tok.star else Tok.lit c)

/-- Python str.split on the comma character: the accumulator holds the
current field reversed; an empty string yields one empty field. -/
def splitComma : List Char → List Char → List (List Char)
  | [], acc => [acc.reverse]
  | c :: cs, acc =>
    if c = ',' then acc.reverse :: splitComma cs [] else splitComma cs (c :: acc)

/-- The trimmed, non-empty comma-separated parts of the keyword string
(filter_entries line: split on comma, strip, keep truthy). -/
def keywordParts (kw : String) : List (List Char) :=
  ((splitComma kw.toList []).map pyStrip).filter (fun s => s ≠ [])

/-- Keyword mask for one entry: the joined pattern searched in the text
column. -/
def entryKeywordHit (parts : List (List Char)) (e : Entry) : Bool :=
  altSearch (parts.map phraseToks) e.text.toList

/-- src/utils.py filter_entries.  None or empty input gives the empty
collection; the four structural constraints are applied as successive
row filters; the keyword constraint applies only when the keyword string
is truthy and some trimmed part remains. -/
def filter_entries (df : Option (List Entry)) (dateFrom dateTo : Option JDate)
    (days times : List String) (keywords : String) : List Entry :=
  match df with
  | none => []
  | some es =>
    if es.isEmpty then [] else
    let o1 := match dateFrom with
      | none => es
      | some d => es.filter (fun e => JDate.leB d e.date)
    let o2 := match dateTo with
      | none => o1
      | some d => o1.filter (fun e => JDate.leB e.date d)
    let o3 := if days.isEmpty then o2 else o2.filter (fun e => days.contains e.day_of_week)
    let o4 := if times.isEmpty then o3 else o3.filter (fun e => times.contains e.time_of_day)
    if keywords = "" then o4
    else
      let parts := keywordParts keywords
      if parts.isEmpty then o4 else o4.filter (entryKeywordHit parts)

/-- src/utils.py filter_entries_by_date_only: the same engine with the
day, time and keyword constraints forced empty. -/
def filter_entries_by_date_only (df : Option (List Entry))
    (dateFrom dateTo : Option JDate) : List Entry :=
  filter_entries df dateFrom dateTo [] [] ""

/-- C4: filter with all-empty criteria is the identity on the collection. -/
theorem c4_filter_empty_criteria_identity (es : List Entry) :
    filter_entries (some es) none none [] [] "" = es := by
  cases es <;> simp [filter_entries]

/-- The row predicate equivalent to the successive filters of
filter_entries, used to reason about composition. -/
def passesB (dateFrom dateTo : Option JDate) (days times : List String)
    (keywords : String) (e : Entry) : Bool :=
  (match dateFrom with | none => true | some d => JDate.leB d e.date) &&
  ((match dateTo with | none => true | some d => JDate.leB e.date d) &&
  ((days.isEmpty || days.contains e.day_of_week) &&
  ((times.isEmpty || times.contains e.time_of_day) &&
  (decide (keywords = "") || ((keywordParts keywords).isEmpty ||
    entryKeywordHit (keywordParts keywords) e)))))

/-- A conditional stage that either skips or filters equals one filter
with the guard disjoined in. -/
theorem list_filter_guard {α : Type} (b : Bool) (p : α → Bool) (l : List α) :
    (if b then l else l.filter p) = l.filter (fun e => b || p e) := by
  cases b <;> simp

/-- filter_entries on a present collection is one stable filter by the
conjunction of the five constraints. -/
theorem filter_entries_eq_filter (es : List Entry) (dateFrom dateTo : Option JDate)
    (days times : List String) (keywords : String) :
    filter_entries (some es) dateFrom dateTo days times keywords
      = es.filter (passesB dateFrom dateTo days times keywords) := by
  cases es with
  | nil => cases dateFrom <;> cases dateTo <;> simp [filter_entries]
  | cons a l =>
    simp only [filter_entries, List.isEmpty_cons, Bool.false_eq_true, if_false]
    cases dateFrom <;> cases dateTo <;> by_cases hk : keywords = "" <;>
        by_cases hp : (keywordParts keywords).isEmpty = true <;>
      simp only [] <;>
      rw [list_filter_guard days.isEmpty, list_filter_guard times.isEmpty] <;>
      simp only [if_pos, if_neg, hk, hp, if_true, if_false, List.filter_filter] <;>
      (apply List.filter_congr; intro e he;
       simp [passesB, hk, hp, Bool.and_comm, Bool.and_left_comm, Bool.and_assoc])

/-- C5: filtering is idempotent: filtering an already-filtered collection
with the same criteria returns the same collection. -/
theorem c5_filter_idempotent (es : List Entry) (dateFrom dateTo : Option JDate)
    (days times : List String) (keywords : String) :
    filter_entries (some (filter_entries (some es) dateFrom dateTo days times keywords))
        dateFrom dateTo days times keywords
      = filter_entries (some es) dateFrom dateTo days times keywords := by
  rw [filter_entries_eq_filter, filter_entries_eq_filter, List.filter_filter]
  apply List.filter_congr
  intro e _
  cases passesB dateFrom dateTo days times keywords e <;> rfl

/-- Declarative semantics of one compiled phrase, as the code realizes
it: a literal matches one equal character up to lowercasing, and the
star wildcard matches zero or more characters none of which is a
newline (Python dot-star without DOTALL). -/
def SpecMatch : List Tok → List Char → Prop
  | [], s => s = []
  | Tok.lit c :: ts, s => ∃ x xs, s = x :: xs ∧ x.toLower = c.toLower ∧ SpecMatch ts xs
  | Tok.star :: ts, s => ∃ a b, s = a ++ b ∧ (∀ c ∈ a, c ≠ '\n') ∧ SpecMatch ts b

/-- Declarative semantics of one phrase following the claim words
verbatim: the star matches zero or more characters with no restriction.
Kept separate from SpecMatch to compare the claim against the code. -/
def SpecMatchAny : List Tok → List Char → Prop
  | [], s => s = []
  | Tok.lit c :: ts, s => ∃ x xs, s = x :: xs ∧ x.toLower = c.toLower ∧ SpecMatchAny ts xs
  | Tok.star :: ts, s => ∃ a b, s = a ++ b ∧ SpecMatchAny ts b

/-- Scanning with the dot-star accepts exactly the strings that split
into a newline-free segment followed by a string the rest of the pattern
accepts. -/
theorem starScan_iff (f : List Char → Bool) (P : List Char → Prop)
    (hf : ∀ t, f t = true ↔ ∃ p q, t = p ++ q ∧ P p) (s : List Char) :
    starScan f s = true ↔
      ∃ a p q, s = a ++ p ++ q ∧ (∀ c ∈ a, c ≠ '\n') ∧ P p := by
  induction s with
  | nil =>
    rw [starScan, hf]
    constructor
    · rintro ⟨p, q, hpq, hp⟩
      exact ⟨[], p, q, by simpa using hpq, by simp, hp⟩
    · rintro ⟨a, p, q, hs, -, hp⟩
      obtain ⟨ha, hp0, hq⟩ : a = [] ∧ p = [] ∧ q = [] := by simpa using hs.symm
      subst ha; subst hp0; subst hq
      exact ⟨[], [], rfl, hp⟩
  | cons x xs ih =>
    rw [starScan, Bool.or_eq_true, Bool.and_eq_true, hf, ih]
    constructor
    · rintro (⟨p, q, hpq, hp⟩ | ⟨hnl, a, p, q, hs, ha, hp⟩)
      · exact ⟨[], p, q, by simpa using hpq, by simp, hp⟩
      · refine ⟨x :: a, p, q, by simp [hs], ?_, hp⟩
        intro c hc
        rcases List.mem_cons.mp hc with hcx | hca
        · subst hcx; simpa using hnl
        · exact ha c hca
    · rintro ⟨a, p, q, hs, ha, hp⟩
      cases a with
      | nil => exact Or.inl ⟨p, q, by simpa using hs, hp⟩
      | cons c a =>
        rw [List.cons_append, List.cons_append, List.cons.injEq] at hs
        obtain ⟨hx, hxs⟩ := hs
        subst hx
        refine Or.inr ⟨by simpa using ha x (List.mem_cons_self x a),
          a, p, q, hxs, ?_, hp⟩
        intro c hc
        exact ha c (List.mem_cons_of_mem _ hc)

/-- The anchored matcher accepts exactly the strings with a prefix in the
declarative phrase language. -/
theorem matchHere_iff (ts : List Tok) : ∀ (s : List Char),
    matchHere ts s = true ↔ ∃ p q, s = p ++ q ∧ SpecMatch ts p := by
  induction ts with
  | nil =>
    intro s
    simp only [matchHere, true_iff]
    exact ⟨[], s, rfl, rfl⟩
  | cons t ts ih =>
    cases t with
    | lit c =>
      intro s
      cases s with
      | nil =>
        simp only [matchHere, Bool.false_eq_true, false_iff]
        rintro ⟨p, q, hpq, hp⟩
        cases p with
        | nil =>
          obtain ⟨x, xs, hcontra, -, -⟩ := hp
          exact List.noConfusion hcontra
        | cons y ys => exact List.noConfusion hpq
      | cons x xs =>
        simp only [matchHere, Bool.and_eq_true, ih]
        constructor
        · rintro ⟨hc, p, q, hpq, hp⟩
          refine ⟨x :: p, q, by rw [hpq, List.cons_append], x, p, rfl, ?_, hp⟩
          simpa [charCI] using hc
        · rintro ⟨p, q, hpq, y, ys, hpy, htl, hys⟩
          subst hpy
          rw [List.cons_append, List.cons.injEq] at hpq
          obtain ⟨hx, hxs⟩ := hpq
          subst hx
          exact ⟨by simp [charCI, htl], ys, q, hxs, hys⟩
    | star =>
      intro s
      rw [show matchHere (Tok.star :: ts) s = starScan (matchHere ts) s from rfl,
        starScan_iff (matchHere ts) (SpecMatch ts) ih s]
      constructor
      · rintro ⟨a, p, q, hs, ha, hp⟩
        exact ⟨a ++ p, q, by rw [hs, List.append_assoc], a, p, rfl, ha, hp⟩
      · rintro ⟨p, q, hpq, a, b, hab, ha, hb⟩
        subst hab
        exact ⟨a, b, q, by rw [hpq, List.append_assoc], ha, hb⟩

/-- re.search accepts exactly the strings with a substring in the
declarative phrase language. -/
theorem wildSearch_iff (ts : List Tok) (s : List Char) :
    wildSearch ts s = true ↔
      ∃ pre mid post, s = pre ++ mid ++ post ∧ SpecMatch ts mid := by
  induction s with
  | nil =>
    rw [wildSearch, matchHere_iff]
    constructor
    · rintro ⟨p, q, hpq, hp⟩
      exact ⟨[], p, q, by simpa using hpq, hp⟩
    · rintro ⟨pre, mid, post, hs, hmid⟩
      obtain ⟨hpre, hmid0, hpost⟩ : pre = [] ∧ mid = [] ∧ post = [] := by
        simpa using hs.symm
      subst hpre; subst hmid0; subst hpost
      exact ⟨[], [], rfl, hmid⟩
  | cons x xs ih =>
    rw [wildSearch, Bool.or_eq_true, matchHere_iff, ih]
    constructor
    · rintro (⟨p, q, hpq, hp⟩ | ⟨pre, mid, post, hs, hmid⟩)
      · exact ⟨[], p, q, by simpa using hpq, hp⟩
      · exact ⟨x :: pre, mid, post, by simp [hs], hmid⟩
    · rintro ⟨pre, mid, post, hs, hmid⟩
      cases pre with
      | nil => exact Or.inl ⟨mid, post, by simpa using hs, hmid⟩
      | cons c pre =>
        rw [List.cons_append, List.cons_append, List.cons.injEq] at hs
        exact Or.inr ⟨pre, mid, post, hs.2, hmid⟩

/-- Bool any distributes over a pointwise or. -/
theorem list_any_or_distrib {α : Type} (l : List α) (f g : α → Bool) :
    l.any (fun x => f x || g x) = (l.any f || l.any g) := by
  induction l with
  | nil => rfl
  | cons a l ih =>
    simp only [List.any_cons, ih, Bool.or_assoc, Bool.or_left_comm]

/-- Searching the or-joined pattern equals the or of the individual
phrase searches: the alternation is a logical OR across phrases. -/
theorem altSearch_eq_any (alts : List (List Tok)) (s : List Char) :
    altSearch alts s = alts.any (fun ts => wildSearch ts s) := by
  induction s with
  | nil => rfl
  | cons x xs ih =>
    have : (fun ts => wildSearch ts (x :: xs))
        = fun ts => matchHere ts (x :: xs) || wildSearch ts xs := rfl
    rw [altSearch, ih, this, list_any_or_distrib, altHere]

/-- C1 (amended): filter splits the keyword string on commas, trims each
phrase, drops empty phrases; a remaining phrase matches when the text
contains a substring in its language, where a star matches zero or more
characters other than the newline character and every other character
matches literally and case-insensitively; an entry passes when ANY phrase
matches, and with no remaining phrase the keyword constraint is a no-op. -/
theorem c1_keyword_filter (es : List Entry) (kw : String) :
    (filter_entries (some es) none none [] [] kw
        = if (keywordParts kw).isEmpty then es
          else es.filter (fun e => (keywordParts kw).any
            (fun p => wildSearch (phraseToks p) e.text.toList)))
    ∧ (∀ p s, wildSearch (phraseToks p) s = true ↔
        ∃ pre mid post, s = pre ++ mid ++ post ∧ SpecMatch (phraseToks p) mid) := by
  constructor
  · rw [filter_entries_eq_filter]
    by_cases hk : kw = ""
    · subst hk
      have h0 : keywordParts "" = [] := by decide
      simp [passesB, h0]
    · by_cases hp : (keywordParts kw).isEmpty
      · simp [passesB, hk, hp]
      · rw [if_neg (by simpa using hp)]
        apply List.filter_congr
        intro e he
        simp only [passesB, entryKeywordHit, altSearch_eq_any]
        simp [hk, hp]
        generalize keywordParts kw = ps
        induction ps with
        | nil => rfl
        | cons p ps ih => simp [List.any_cons, ih]
  · intro p s
    exact wildSearch_iff (phraseToks p) s

/-- C1 examples from the claim: the phrase OC-star matches a text
containing OCD, and a two-phrase keyword string keeps an entry containing
either word. -/
theorem c1_keyword_filter_examples :
    filter_entries (some [⟨⟨2024, 1, 5⟩, "Friday", "morning", "felt OCD today"⟩])
        none none [] [] "OC*"
      = [⟨⟨2024, 1, 5⟩, "Friday", "morning", "felt OCD today"⟩]
    ∧ filter_entries (some [⟨⟨2024, 2, 1⟩, "Thursday", "afternoon", "calm and happy"⟩,
          ⟨⟨2024, 1, 2⟩, "Tuesday", "evening", "sad day"⟩])
        none none [] [] "happy, sad"
      = [⟨⟨2024, 2, 1⟩, "Thursday", "afternoon", "calm and happy"⟩,
          ⟨⟨2024, 1, 2⟩, "Tuesday", "evening", "sad day"⟩] := by
  constructor <;> decide

/-- C1 counterexample to the claim as stated: under the claim reading the
star matches ANY zero or more characters, so the phrase a-star-b matches
the text consisting of the letter a, a newline, and the letter b; the
code compiles the star to dot-star, which does not cross a newline, so
the filter drops the entry. -/
theorem c1_counterexample :
    (∃ pre mid post, (String.toList "a\nb") = pre ++ mid ++ post ∧
        SpecMatchAny (phraseToks (String.toList "a*b")) mid)
    ∧ filter_entries (some [⟨⟨2024, 1, 1⟩, "Monday", "morning", "a\nb"⟩])
        none none [] [] "a*b" = [] := by
  constructor
  · refine ⟨[], ['a', '\n', 'b'], [], rfl, ?_⟩
    show SpecMatchAny [Tok.lit 'a', Tok.star, Tok.lit 'b'] ['a', '\n', 'b']
    exact ⟨'a', ['\n', 'b'], rfl, rfl, ['\n'], ['b'], rfl, 'b', [], rfl, rfl, rfl⟩
  · decide

/-! ## Aggregator: phrase-by-month counts (src/report_builder.py)

_phrase_matches_entry lowers the text, splits the phrase on whitespace,
and requires every word as a substring; _phrase_counts_by_month derives
the month key from the date, applies the match to every row, and groups
by month with sorted keys, summing the boolean match column.  A month
label YYYY-MM is embedded as the pair (year, month); the sorted order of
the zero-padded labels is the chronological order on these pairs. -/

/-- Python str.lower, per character. -/
def lowerChars (s : List Char) : List Char := s.map Char.toLower

/-- Python substring test (the in operator on strings). -/
def containsSeq (needle : List Char) : List Char → Bool
  | [] => needle.isPrefixOf []
  | c :: t => needle.isPrefixOf (c :: t) || containsSeq needle t

/-- src/report_builder.py _phrase_matches_entry: False on empty text or
empty phrase, else every whitespace-separated word of the phrase must
occur in the lowered text. -/
def phrase_matches_entry (text phrase : String) : Bool :=
  if text = "" || phrase = "" then false
  else
    ((pyWords phrase).filter (fun w => pyStrip w ≠ [])).all
      (fun w => containsSeq (lowerChars (pyStrip w)) (lowerChars text.toList))

/-- The month key of an entry: pandas to_period of the date. -/
def entryMonth (e : Entry) : Nat × Nat := (e.date.year, e.date.month)

/-- Chronological order on month keys (the sort order of the zero-padded
YYYY-MM labels). -/
def monthLe (a b : Nat × Nat) : Prop := a.1 < b.1 ∨ (a.1 = b.1 ∧ a.2 ≤ b.2)

/-- Strict chronological order on month keys. -/
def monthLt (a b : Nat × Nat) : Prop := a.1 < b.1 ∨ (a.1 = b.1 ∧ a.2 < b.2)

instance : DecidableRel monthLe := fun a b => by unfold monthLe; exact inferInstance

instance : DecidableRel monthLt := fun a b => by unfold monthLt; exact inferInstance

instance : IsTotal (Nat × Nat) monthLe := ⟨by intro a b; unfold monthLe; omega⟩

instance : IsTrans (Nat × Nat) monthLe := ⟨by intro a b c; unfold monthLe; omega⟩

/-- src/report_builder.py _phrase_counts_by_month: one row per distinct
month present in the collection (groupby sorts the keys ascending), with
the number of entries of that month whose text matches the phrase. -/
def phrase_counts_by_month (es : List Entry) (phrase : String) :
    List ((Nat × Nat) × Nat) :=
  (List.insertionSort monthLe ((es.map entryMonth).dedup)).map
    (fun m => (m, es.countP (fun e =>
      decide (entryMonth e = m) && phrase_matches_entry e.text phrase)))

/-- Substring containment characterized: the needle occurs between some
prefix and suffix. -/
theorem containsSeq_iff (n : List Char) (h : List Char) :
    containsSeq n h = true ↔ ∃ pre post, h = pre ++ n ++ post := by
  induction h with
  | nil =>
    rw [containsSeq, List.isPrefixOf_iff_prefix]
    constructor
    · intro hn
      obtain ⟨t, ht⟩ := hn
      obtain ⟨hn0, -⟩ := List.append_eq_nil.mp ht
      exact ⟨[], [], by simp [hn0]⟩
    · rintro ⟨pre, post, hsplit⟩
      obtain ⟨-, hn0, -⟩ : pre = [] ∧ n = [] ∧ post = [] := by
        simpa using hsplit.symm
      simp [hn0]
  | cons c t ih =>
    rw [containsSeq, Bool.or_eq_true, List.isPrefixOf_iff_prefix, ih]
    constructor
    · rintro (⟨q, hq⟩ | ⟨pre, post, hsplit⟩)
      · exact ⟨[], q, by rw [List.nil_append, hq]⟩
      · exact ⟨c :: pre, post, by simp [hsplit]⟩
    · rintro ⟨pre, post, hsplit⟩
      cases pre with
      | nil => exact Or.inl ⟨post, by simpa using hsplit.symm⟩
      | cons d pre =>
        rw [List.cons_append, List.cons_append, List.cons.injEq] at hsplit
        exact Or.inr ⟨pre, post, hsplit.2⟩

/-- Every word produced by whitespace splitting is non-empty and free of
whitespace. -/
theorem pyWordsAux_sound (cs : List Char) : ∀ (acc : List Char),
    (∀ c ∈ acc, isWsChar c = false) →
    ∀ w ∈ pyWordsAux cs acc, w ≠ [] ∧ ∀ c ∈ w, isWsChar c = false := by
  induction cs with
  | nil =>
    intro acc hacc w hw
    rw [pyWordsAux] at hw
    by_cases ha : acc.isEmpty = true
    · simp [ha] at hw
    · rw [if_neg ha] at hw
      rw [List.mem_singleton] at hw
      subst hw
      refine ⟨?_, fun c hc => hacc c (List.mem_reverse.mp hc)⟩
      intro h0
      exact ha (List.isEmpty_iff.mpr (List.reverse_eq_nil_iff.mp h0))
  | cons c cs ih =>
    intro acc hacc w hw
    rw [pyWordsAux] at hw
    by_cases hwc : isWsChar c = true
    · rw [if_pos hwc] at hw
      by_cases ha : acc.isEmpty = true
      · rw [if_pos ha] at hw
        exact ih [] (by simp) w hw
      · rw [if_neg ha] at hw
        rcases List.mem_cons.mp hw with hw1 | hw2
        · subst hw1
          refine ⟨?_, fun d hd => hacc d (List.mem_reverse.mp hd)⟩
          intro h0
          exact ha (List.isEmpty_iff.mpr (List.reverse_eq_nil_iff.mp h0))
        · exact ih [] (by simp) w hw2
    · rw [if_neg hwc] at hw
      refine ih (c :: acc) ?_ w hw
      intro d hd
      rcases List.mem_cons.mp hd with h1 | h2
      · subst h1; simpa using hwc
      · exact hacc d h2

/-- Dropping leading whitespace is the identity on a whitespace-free
list. -/
theorem dropWhile_ws_eq_self (l : List Char)
    (h : ∀ c ∈ l, isWsChar c = false) : l.dropWhile isWsChar = l := by
  cases l with
  | nil => rfl
  | cons c t => simp [List.dropWhile_cons, h c (List.mem_cons_self c t)]

/-- Stripping is the identity on a whitespace-free list. -/
theorem pyStrip_eq_self (l : List Char)
    (h : ∀ c ∈ l, isWsChar c = false) : pyStrip l = l := by
  unfold pyStrip
  rw [dropWhile_ws_eq_self l h,
    dropWhile_ws_eq_self l.reverse (fun c hc => h c (List.mem_reverse.mp hc)),
    List.reverse_reverse]

/-- The phrase match characterized: non-empty text, non-empty phrase, and
every whitespace-separated word of the phrase occurs as a substring of
the lowercased text. -/
theorem phrase_matches_entry_iff (t p : String) :
    phrase_matches_entry t p = true ↔
      (t ≠ "" ∧ p ≠ "" ∧ ∀ w ∈ pyWords p,
        ∃ pre post, lowerChars t.toList = pre ++ lowerChars w ++ post) := by
  unfold phrase_matches_entry
  by_cases ht : t = ""
  · simp [ht]
  · by_cases hp : p = ""
    · simp [ht, hp]
    · rw [if_neg (by simp [ht, hp])]
      rw [List.all_eq_true]
      constructor
      · intro hall
        refine ⟨ht, hp, ?_⟩
        intro w hw
        have hsound := pyWordsAux_sound p.toList [] (by simp) w hw
        have hstrip : pyStrip w = w := pyStrip_eq_self w hsound.2
        have hmem : w ∈ (pyWords p).filter (fun w => pyStrip w ≠ []) := by
          rw [List.mem_filter]
          exact ⟨hw, by simp [hstrip, hsound.1]⟩
        have hc := hall w hmem
        rw [hstrip] at hc
        exact (containsSeq_iff _ _).mp hc
      · intro hx w hw
        have hw0 : w ∈ pyWords p := (List.mem_filter.mp hw).1
        have hsound := pyWordsAux_sound p.toList [] (by simp) w hw0
        have hstrip : pyStrip w = w := pyStrip_eq_self w hsound.2
        rw [hstrip]
        exact (containsSeq_iff _ _).mpr (hx.2.2 w hw0)

/-- C10: the phrase match is False on empty text or empty phrase; a
non-empty phrase that splits into zero words matches every non-empty
text vacuously, so the monthly counts with such a phrase count exactly
the entries with non-empty text in each month. -/
theorem c10_phrase_match_edge_cases :
    (∀ p, phrase_matches_entry "" p = false)
    ∧ (∀ t, phrase_matches_entry t "" = false)
    ∧ (∀ t p, t ≠ "" → p ≠ "" → pyWords p = [] →
        phrase_matches_entry t p = true)
    ∧ (∀ es p, p ≠ "" → pyWords p = [] →
        phrase_counts_by_month es p
          = (List.insertionSort monthLe ((es.map entryMonth).dedup)).map
              (fun m => (m, es.countP (fun e =>
                decide (entryMonth e = m) && decide (e.text ≠ ""))))) := by
  refine ⟨?_, ?_, ?_, ?_⟩
  · intro p; simp [phrase_matches_entry]
  · intro t; simp [phrase_matches_entry]
  · intro t p ht hp hw
    unfold phrase_matches_entry
    rw [if_neg (by simp [ht, hp])]
    simp [hw]
  · intro es p hp hw
    have hpm : ∀ t : String, phrase_matches_entry t p = decide (t ≠ "") := by
      intro t
      by_cases ht : t = ""
      · simp [ht, phrase_matches_entry]
      · unfold phrase_matches_entry
        rw [if_neg (by simp [ht, hp])]
        simp [hw, ht]
    unfold phrase_counts_by_month
    simp only [hpm]

/-- C10 witness: a whitespace-only phrase matches a non-empty text, and
with two January entries of which one has empty text the January count
is one. -/
theorem c10_phrase_match_edge_cases_witness :
    phrase_matches_entry "hello" " " = true
    ∧ phrase_counts_by_month
        [⟨⟨2024, 1, 5⟩, "x", "y", "hello"⟩, ⟨⟨2024, 1, 6⟩, "x", "y", ""⟩] " "
        = [((2024, 1), 1)] := by
  constructor
  · exact c10_phrase_match_edge_cases.2.2.1 "hello" " " (by decide) (by decide)
      (by decide)
  · rw [c10_phrase_match_edge_cases.2.2.2 _ " " (by decide) (by decide)]
    decide

/-- Month order is strict on distinct keys that compare weakly. -/
theorem monthLe_ne_lt (a b : Nat × Nat) (h : monthLe a b ∧ a ≠ b) :
    monthLt a b := by
  obtain ⟨hle, hne⟩ := h
  rcases a with ⟨a1, a2⟩
  rcases b with ⟨b1, b2⟩
  unfold monthLe at hle
  unfold monthLt
  simp only [ne_eq, Prod.mk.injEq, not_and] at hne
  by_cases h1 : a1 = b1
  · subst h1
    rcases hle with h | ⟨-, h2⟩
    · omega
    · exact Or.inr ⟨rfl, lt_of_le_of_ne h2 (fun he => hne rfl he)⟩
  · rcases hle with h | ⟨he, -⟩
    · exact Or.inl h
    · exact absurd he h1

/-- C2 (amended): for every collection and phrase, the phrase-by-month
result lists exactly the months that have at least one entry, sorted
strictly chronologically ascending with zero-count months included; the
count of a month is the number of its entries matching the phrase; and
an entry matches exactly when its text is non-empty, the phrase is
non-empty, and every whitespace-separated word of the phrase occurs
case-insensitively as a substring of the text. -/
theorem c2_phrase_counts_by_month (es : List Entry) (phrase : String) :
    List.Pairwise monthLt ((phrase_counts_by_month es phrase).map Prod.fst)
    ∧ (∀ m, m ∈ (phrase_counts_by_month es phrase).map Prod.fst ↔
        ∃ e, e ∈ es ∧ entryMonth e = m)
    ∧ (∀ m c, (m, c) ∈ phrase_counts_by_month es phrase →
        c = es.countP (fun e =>
          decide (entryMonth e = m) && phrase_matches_entry e.text phrase))
    ∧ (∀ t q, phrase_matches_entry t q = true ↔
        (t ≠ "" ∧ q ≠ "" ∧ ∀ w ∈ pyWords q,
          ∃ pre post, lowerChars t.toList = pre ++ lowerChars w ++ post)) := by
  have hfst : (phrase_counts_by_month es phrase).map Prod.fst
      = List.insertionSort monthLe ((es.map entryMonth).dedup) := by
    unfold phrase_counts_by_month
    simp [List.map_map, Function.comp_def]
  refine ⟨?_, ?_, ?_, ?_⟩
  · rw [hfst]
    have hsorted : List.Sorted monthLe
        (List.insertionSort monthLe ((es.map entryMonth).dedup)) :=
      List.sorted_insertionSort monthLe _
    have hnodup : (List.insertionSort monthLe ((es.map entryMonth).dedup)).Nodup :=
      ((List.perm_insertionSort monthLe _).symm).nodup (List.nodup_dedup _)
    exact (hsorted.and hnodup).imp (fun h => monthLe_ne_lt _ _ h)
  · intro m
    rw [hfst, (List.perm_insertionSort monthLe _).mem_iff, List.mem_dedup,
      List.mem_map]
  · intro m c hmc
    unfold phrase_counts_by_month at hmc
    obtain ⟨m2, hm2, heq⟩ := List.mem_map.mp hmc
    obtain ⟨h1, h2⟩ : m2 = m ∧ (es.countP (fun e =>
        decide (entryMonth e = m2) && phrase_matches_entry e.text phrase)) = c := by
      simpa [Prod.mk.injEq] using heq
    subst h1
    exact h2.symm
  · intro t q
    exact phrase_matches_entry_iff t q

/-- C2 counterexample to the claim as stated: with the empty phrase the
all-words condition on the claim side is vacuously satisfied by the
entry text, so the claim predicts a January count of one, but the code
returns False for an empty phrase and counts zero. -/
theorem c2_counterexample :
    phrase_counts_by_month [⟨⟨2024, 1, 5⟩, "Friday", "morning", "hello"⟩] ""
        = [((2024, 1), 0)]
    ∧ phrase_matches_entry "hello" "" = false
    ∧ (∀ w ∈ pyWords "", ∃ pre post,
        lowerChars (String.toList "hello") = pre ++ lowerChars w ++ post) := by
  refine ⟨by decide, by decide, ?_⟩
  intro w hw
  have h0 : pyWords "" = [] := by decide
  rw [h0] at hw
  exact absurd hw (by simp)

/-- C2 witness: the characterization applied to a concrete two-entry
collection, giving the January count for the phrase a. -/
theorem c2_phrase_counts_by_month_witness :
    (1 : Nat) = List.countP (fun e =>
        decide (entryMonth e = (2024, 1)) && phrase_matches_entry e.text "a")
      [⟨⟨2024, 2, 5⟩, "x", "y", "b"⟩, ⟨⟨2024, 1, 6⟩, "x", "y", "a"⟩] :=
  (c2_phrase_counts_by_month
    [⟨⟨2024, 2, 5⟩, "x", "y", "b"⟩, ⟨⟨2024, 1, 6⟩, "x", "y", "a"⟩] "a").2.2.1
    (2024, 1) 1 (by decide)

/-! ## Aggregator: grouped excerpts (src/report_builder.py)

_excerpt truncates a text at the budget, backing up to a word boundary
with rsplit, and strips; _build_grouped_excerpts walks the rows of each
group (groups in first-seen order, groupby with sort off), accumulating
stripped texts capped at the remaining budget and stopping once the
budget is reached, then joins the accumulated parts with single
spaces. -/

/-- The last whitespace-free word of a string after trailing whitespace
is removed, reversed (helper for the rsplit embedding). -/
def rsplitWord (s : List Char) : List Char :=
  (s.reverse.dropWhile isWsChar).takeWhile (fun c => !(isWsChar c))

/-- What remains before the last word and its separator run, reversed
(helper for the rsplit embedding). -/
def rsplitRest (s : List Char) : List Char :=
  ((s.reverse.dropWhile isWsChar).dropWhile (fun c => !(isWsChar c))).dropWhile
    isWsChar

/-- Python str.rsplit with no separator and maxsplit one: drop trailing
whitespace, detach the last whitespace-free word and the separator run;
an all-whitespace input gives the empty list, a one-word remainder a
singleton. -/
def rsplit1 (s : List Char) : List (List Char) :=
  if (s.reverse.dropWhile isWsChar).isEmpty then []
  else if (rsplitRest s).isEmpty then [(rsplitWord s).reverse]
  else [(rsplitRest s).reverse, (rsplitWord s).reverse]

/-- src/report_builder.py _excerpt: return the text if it fits, else
truncate to the budget, detach the cut word with rsplit when possible,
and strip. -/
def excerpt (t : List Char) (maxChars : Nat) : List Char :=
  if t.isEmpty || t.length ≤ maxChars then pyStrip t
  else
    match rsplit1 (t.take maxChars) with
    | [] => pyStrip (t.take maxChars)
    | s0 :: _ => pyStrip s0

/-- Group labels in first-seen order (pandas groupby with sort off). -/
def firstSeenAux : List String → List String → List String
  | [], _ => []
  | x :: xs, seen =>
    if x ∈ seen then firstSeenAux xs seen else x :: firstSeenAux xs (x :: seen)

/-- The distinct group labels of a collection, in first-seen order. -/
def groupLabels (es : List Entry) (key : Entry → String) : List String :=
  firstSeenAux (es.map key) []

/-- The rows of one group, in collection order. -/
def groupRows (es : List Entry) (key : Entry → String) (g : String) : List Entry :=
  es.filter (fun e => key e = g)

/-- The accumulation loop of _build_grouped_excerpts: strip each text,
skip empty ones, cap each take at the remaining budget, break when no
budget remains or once the accumulated length reaches the budget. -/
def buildParts (maxChars : Nat) : List Entry → Nat → List (List Char)
  | [], _ => []
  | e :: rs, total =>
    let t := pyStrip e.text.toList
    if t.isEmpty then buildParts maxChars rs total
    else
      let takeN := min t.length (maxChars - total)
      if takeN = 0 then []
      else
        let part := excerpt t takeN
        if maxChars ≤ total + part.length then [part]
        else part :: buildParts maxChars rs (total + part.length)

/-- Python space join of the accumulated parts. -/
def joinSpace : List (List Char) → List Char
  | [] => []
  | [p] => p
  | p :: q :: ps => p ++ ' ' :: joinSpace (q :: ps)

/-- src/report_builder.py _build_grouped_excerpts: one record per group
label in first-seen order, with the joined accumulated excerpt parts. -/
def build_grouped_excerpts (es : List Entry) (key : Entry → String)
    (maxCharsPerGroup : Nat) : List (String × List Char) :=
  (groupLabels es key).map (fun g =>
    (g, joinSpace (buildParts maxCharsPerGroup (groupRows es key g) 0)))

/-- The accumulation loop of _overall_sample: per-entry cap of two
hundred characters, append, then break once the global budget is
reached. -/
def overallParts (maxChars : Nat) : List Entry → Nat → List (List Char)
  | [], _ => []
  | e :: rs, total =>
    let t := pyStrip e.text.toList
    if t.isEmpty then overallParts maxChars rs total
    else
      let chunk := excerpt t (min t.length 200)
      if maxChars ≤ total + chunk.length then [chunk]
      else chunk :: overallParts maxChars rs (total + chunk.length)

/-- src/report_builder.py _overall_sample. -/
def overall_sample (es : List Entry) (maxChars : Nat) : List Char :=
  joinSpace (overallParts maxChars es 0)

/-- The head remaining after dropping leading whitespace is not
whitespace. -/
theorem head_not_ws_of_dropWhile (l : List Char) (c : Char) (rest : List Char)
    (h : l.dropWhile isWsChar = c :: rest) : isWsChar c = false := by
  induction l with
  | nil => exact List.noConfusion h
  | cons d t ih =>
    rw [List.dropWhile_cons] at h
    by_cases hd : isWsChar d = true
    · rw [if_pos hd] at h; exact ih h
    · rw [if_neg hd] at h
      obtain ⟨h1, -⟩ := List.cons.inj h
      subst h1
      simpa using hd

/-- Dropping leading whitespace is the identity when the head is not
whitespace. -/
theorem dropWhile_eq_self_of_head (l : List Char)
    (h : ∀ c rest, l = c :: rest → isWsChar c = false) :
    l.dropWhile isWsChar = l := by
  cases l with
  | nil => rfl
  | cons c t => rw [List.dropWhile_cons, if_neg (by simp [h c t rfl])]

/-- The head of a stripped string is not whitespace. -/
theorem pyStrip_head_not_ws (l : List Char) (c : Char) (rest : List Char)
    (h : pyStrip l = c :: rest) : isWsChar c = false := by
  unfold pyStrip at h
  have hsplit := List.takeWhile_append_dropWhile (p := isWsChar)
    (l := (l.dropWhile isWsChar).reverse)
  have hrev := congrArg List.reverse hsplit
  rw [List.reverse_append, List.reverse_reverse, h] at hrev
  exact head_not_ws_of_dropWhile l c _ (by rw [← hrev, List.cons_append])

/-- Stripping twice is stripping once. -/
theorem pyStrip_idem (l : List Char) : pyStrip (pyStrip l) = pyStrip l := by
  rcases hp : pyStrip l with - | ⟨c, rest⟩
  · rfl
  · have hc : isWsChar c = false := pyStrip_head_not_ws l c rest hp
    unfold pyStrip
    rw [dropWhile_eq_self_of_head (c :: rest)
      (by intro d r h; obtain ⟨h1, -⟩ := List.cons.inj h; subst h1; exact hc)]
    have hB : (c :: rest).reverse.dropWhile isWsChar = (c :: rest).reverse := by
      rw [← hp]
      unfold pyStrip
      rw [List.reverse_reverse]
      apply dropWhile_eq_self_of_head
      intro d r hdr
      exact head_not_ws_of_dropWhile _ d r hdr
    rw [hB, List.reverse_reverse]

/-- Dropping a prefix never lengthens a list. -/
theorem lengthDropWhileLe (p : Char → Bool) (l : List Char) :
    (l.dropWhile p).length ≤ l.length := by
  induction l with
  | nil => simp
  | cons c t ih =>
    rw [List.dropWhile_cons]
    by_cases h : p c = true
    · rw [if_pos h]; exact le_trans ih (Nat.le_succ _)
    · rw [if_neg h]

/-- Taking a prefix never lengthens a list. -/
theorem lengthTakeWhileLe (p : Char → Bool) (l : List Char) :
    (l.takeWhile p).length ≤ l.length := by
  induction l with
  | nil => simp
  | cons c t ih =>
    rw [List.takeWhile_cons]
    by_cases h : p c = true
    · rw [if_pos h]; simpa using ih
    · rw [if_neg h]; simp

/-- Stripping never lengthens a string. -/
theorem pyStrip_length_le (l : List Char) : (pyStrip l).length ≤ l.length := by
  unfold pyStrip
  rw [List.length_reverse]
  calc ((l.dropWhile isWsChar).reverse.dropWhile isWsChar).length
      ≤ (l.dropWhile isWsChar).reverse.length := lengthDropWhileLe _ _
    _ = (l.dropWhile isWsChar).length := List.length_reverse _
    _ ≤ l.length := lengthDropWhileLe _ _

/-- Both fields returned by the rsplit embedding fit in the input. -/
theorem rsplit1_mem_length_le (s : List Char) :
    ∀ x ∈ rsplit1 s, x.length ≤ s.length := by
  intro x hx
  have hword : (rsplitWord s).length ≤ s.length := by
    unfold rsplitWord
    calc ((s.reverse.dropWhile isWsChar).takeWhile fun c => !(isWsChar c)).length
        ≤ (s.reverse.dropWhile isWsChar).length := lengthTakeWhileLe _ _
      _ ≤ s.reverse.length := lengthDropWhileLe _ _
      _ = s.length := List.length_reverse _
  have hrest : (rsplitRest s).length ≤ s.length := by
    unfold rsplitRest
    calc (((s.reverse.dropWhile isWsChar).dropWhile
            (fun c => !(isWsChar c))).dropWhile isWsChar).length
        ≤ ((s.reverse.dropWhile isWsChar).dropWhile
            fun c => !(isWsChar c)).length := lengthDropWhileLe _ _
      _ ≤ (s.reverse.dropWhile isWsChar).length := lengthDropWhileLe _ _
      _ ≤ s.reverse.length := lengthDropWhileLe _ _
      _ = s.length := List.length_reverse _
  unfold rsplit1 at hx
  split_ifs at hx with h1 h2
  · simp at hx
  · rw [List.mem_singleton] at hx
    subst hx
    simpa using hword
  · rcases List.mem_cons.mp hx with h | h
    · subst h; simpa using hrest
    · rw [List.mem_singleton] at h
      subst h
      simpa using hword

/-- An excerpt never exceeds its budget. -/
theorem excerpt_length_le (t : List Char) (m : Nat) :
    (excerpt t m).length ≤ m := by
  unfold excerpt
  split
  case isTrue h =>
    rw [Bool.or_eq_true] at h
    rcases h with h1 | h2
    · have h0 : t = [] := List.isEmpty_iff.mp h1
      subst h0
      simp [pyStrip]
    · exact le_trans (pyStrip_length_le t) (of_decide_eq_true h2)
  case isFalse h =>
    have htk : (t.take m).length ≤ m := by
      rw [List.length_take]; exact min_le_left _ _
    rcases hsp : rsplit1 (t.take m) with - | ⟨s0, rest⟩
    · simp only [hsp]
      exact le_trans (pyStrip_length_le _) htk
    · simp only [hsp]
      have hs0 : s0.length ≤ (t.take m).length :=
        rsplit1_mem_length_le (t.take m) s0 (by rw [hsp]; exact List.mem_cons_self _ _)
      exact le_trans (pyStrip_length_le _) (le_trans hs0 htk)

/-- Dropping whitespace keeps a list containing a non-whitespace
character non-empty. -/
theorem dropWhile_ws_ne_nil_of_mem (l : List Char) (c : Char) (hc : c ∈ l)
    (hw : isWsChar c = false) : l.dropWhile isWsChar ≠ [] := by
  induction l with
  | nil => exact absurd hc (by simp)
  | cons d t ih =>
    rw [List.dropWhile_cons]
    by_cases hd : isWsChar d = true
    · rw [if_pos hd]
      rcases List.mem_cons.mp hc with h1 | h2
      · subst h1; rw [hd] at hw; exact absurd hw (by simp)
      · exact ih h2
    · rw [if_neg hd]; simp

/-- Stripping keeps a list containing a non-whitespace character
non-empty. -/
theorem pyStrip_ne_nil_of_mem (l : List Char) (c : Char) (hc : c ∈ l)
    (hw : isWsChar c = false) : pyStrip l ≠ [] := by
  unfold pyStrip
  rw [ne_eq, List.reverse_eq_nil_iff]
  have hcA : c ∈ l.dropWhile isWsChar := by
    have hsplit := List.takeWhile_append_dropWhile (p := isWsChar) (l := l)
    have hmem : c ∈ l.takeWhile isWsChar ++ l.dropWhile isWsChar := by
      rw [hsplit]; exact hc
    rcases List.mem_append.mp hmem with h | h
    · have := List.mem_takeWhile_imp h
      rw [hw] at this
      exact absurd this (by simp)
    · exact h
  exact dropWhile_ws_ne_nil_of_mem _ c (List.mem_reverse.mpr hcA) hw

/-- The excerpt of a non-empty stripped text with a positive budget is
non-empty. -/
theorem excerpt_ne_nil (t : List Char) (m : Nat) (hstrip : pyStrip t = t)
    (hne : t ≠ []) (hm : 1 ≤ m) : excerpt t m ≠ [] := by
  obtain ⟨c, rest, rfl⟩ : ∃ c rest, t = c :: rest := by
    cases t with
    | nil => exact absurd rfl hne
    | cons c rest => exact ⟨c, rest, rfl⟩
  have hc : isWsChar c = false := pyStrip_head_not_ws _ c rest hstrip
  unfold excerpt
  split
  case isTrue h => rw [hstrip]; exact hne
  case isFalse h =>
    have htake : (c :: rest).take m = c :: rest.take (m - 1) := by
      cases m with
      | zero => exact absurd hm (by simp)
      | succ n => simp [List.take_succ_cons]
    have hcpre : c ∈ (c :: rest).take m := by
      rw [htake]; exact List.mem_cons_self _ _
    have hr : ((c :: rest).take m).reverse.dropWhile isWsChar ≠ [] :=
      dropWhile_ws_ne_nil_of_mem _ c (List.mem_reverse.mpr hcpre) hc
    unfold rsplit1
    rw [if_neg (by simpa [List.isEmpty_iff] using hr)]
    by_cases h2 : (rsplitRest ((c :: rest).take m)).isEmpty = true
    · rw [if_pos h2]
      obtain ⟨d, rd, hdr⟩ : ∃ d rd,
          ((c :: rest).take m).reverse.dropWhile isWsChar = d :: rd := by
        rcases hx : ((c :: rest).take m).reverse.dropWhile isWsChar with - | ⟨d, rd⟩
        · exact absurd hx hr
        · exact ⟨d, rd, rfl⟩
      have hd : isWsChar d = false := head_not_ws_of_dropWhile _ d rd hdr
      have hwrd : rsplitWord ((c :: rest).take m) = d :: rd.takeWhile (fun c => !(isWsChar c)) := by
        unfold rsplitWord
        rw [hdr, List.takeWhile_cons, if_pos (by simp [hd])]
      show pyStrip (rsplitWord ((c :: rest).take m)).reverse ≠ []
      apply pyStrip_ne_nil_of_mem _ d
      · rw [List.mem_reverse, hwrd]; exact List.mem_cons_self _ _
      · exact hd
    · rw [if_neg h2]
      obtain ⟨d, rd, hdr⟩ : ∃ d rd, rsplitRest ((c :: rest).take m) = d :: rd := by
        rcases hx : rsplitRest ((c :: rest).take m) with - | ⟨d, rd⟩
        · exact absurd rfl (by rw [hx] at h2; exact h2)
        · exact ⟨d, rd, rfl⟩
      have hd : isWsChar d = false := by
        unfold rsplitRest at hdr
        exact head_not_ws_of_dropWhile _ d rd hdr
      show pyStrip (rsplitRest ((c :: rest).take m)).reverse ≠ []
      apply pyStrip_ne_nil_of_mem _ d
      · rw [List.mem_reverse, hdr]; exact List.mem_cons_self _ _
      · exact hd

/-- Unfolding equation for the accumulation loop. -/
theorem buildParts_cons (maxChars : Nat) (e : Entry) (rs : List Entry) (total : Nat) :
    buildParts maxChars (e :: rs) total =
      if (pyStrip e.text.toList).isEmpty then buildParts maxChars rs total
      else if min (pyStrip e.text.toList).length (maxChars - total) = 0 then []
      else if maxChars ≤ total + (excerpt (pyStrip e.text.toList)
          (min (pyStrip e.text.toList).length (maxChars - total))).length then
        [excerpt (pyStrip e.text.toList)
          (min (pyStrip e.text.toList).length (maxChars - total))]
      else excerpt (pyStrip e.text.toList)
          (min (pyStrip e.text.toList).length (maxChars - total))
        :: buildParts maxChars rs (total + (excerpt (pyStrip e.text.toList)
          (min (pyStrip e.text.toList).length (maxChars - total))).length) := rfl

/-- The accumulated fragment lengths never push the running total past
the budget. -/
theorem buildParts_sum_le (maxChars : Nat) (rs : List Entry) :
    ∀ total, total ≤ maxChars →
      total + ((buildParts maxChars rs total).map List.length).sum ≤ maxChars := by
  induction rs with
  | nil => intro total h; simpa [buildParts] using h
  | cons e rs ih =>
    intro total htot
    rw [buildParts_cons]
    by_cases h1 : (pyStrip e.text.toList).isEmpty = true
    · rw [if_pos h1]; exact ih total htot
    · rw [if_neg h1]
      by_cases h2 : min (pyStrip e.text.toList).length (maxChars - total) = 0
      · rw [if_pos h2]; simpa using htot
      · rw [if_neg h2]
        have hple : (excerpt (pyStrip e.text.toList)
            (min (pyStrip e.text.toList).length (maxChars - total))).length
            ≤ maxChars - total :=
          le_trans (excerpt_length_le _ _) (min_le_right _ _)
        by_cases h3 : maxChars ≤ total + (excerpt (pyStrip e.text.toList)
            (min (pyStrip e.text.toList).length (maxChars - total))).length
        · rw [if_pos h3]
          simp only [List.map_cons, List.map_nil, List.sum_cons, List.sum_nil]
          omega
        · rw [if_neg h3]
          simp only [List.map_cons, List.sum_cons]
          have hih := ih (total + (excerpt (pyStrip e.text.toList)
            (min (pyStrip e.text.toList).length (maxChars - total))).length)
            (by omega)
          omega

/-- Every accumulated fragment is non-empty. -/
theorem buildParts_ne_nil (maxChars : Nat) (rs : List Entry) :
    ∀ total, ∀ p ∈ buildParts maxChars rs total, p ≠ [] := by
  induction rs with
  | nil => intro total p hp; simp [buildParts] at hp
  | cons e rs ih =>
    intro total p hp
    rw [buildParts_cons] at hp
    by_cases h1 : (pyStrip e.text.toList).isEmpty = true
    · rw [if_pos h1] at hp; exact ih total p hp
    · rw [if_neg h1] at hp
      by_cases h2 : min (pyStrip e.text.toList).length (maxChars - total) = 0
      · rw [if_pos h2] at hp; simp at hp
      · rw [if_neg h2] at hp
        have hstrip : pyStrip (pyStrip e.text.toList) = pyStrip e.text.toList :=
          pyStrip_idem _
        have htne : pyStrip e.text.toList ≠ [] := by
          simpa [List.isEmpty_iff] using h1
        have hm : 1 ≤ min (pyStrip e.text.toList).length (maxChars - total) :=
          Nat.one_le_iff_ne_zero.mpr h2
        have hexc := excerpt_ne_nil (pyStrip e.text.toList) _ hstrip htne hm
        by_cases h3 : maxChars ≤ total + (excerpt (pyStrip e.text.toList)
            (min (pyStrip e.text.toList).length (maxChars - total))).length
        · rw [if_pos h3] at hp
          rw [List.mem_singleton] at hp
          subst hp
          exact hexc
        · rw [if_neg h3] at hp
          rcases List.mem_cons.mp hp with h | h
          · subst h; exact hexc
          · exact ih _ p h

/-- Once the budget is reached, the loop accumulates nothing more. -/
theorem buildParts_stops (maxChars : Nat) (rs : List Entry) :
    ∀ total, maxChars ≤ total → buildParts maxChars rs total = [] := by
  induction rs with
  | nil => intro total h; rfl
  | cons e rs ih =>
    intro total h
    rw [buildParts_cons]
    by_cases h1 : (pyStrip e.text.toList).isEmpty = true
    · rw [if_pos h1]; exact ih total h
    · rw [if_neg h1]
      rw [if_pos]
      have h0 : maxChars - total = 0 := by omega
      simp [h0]

/-- Length of a space join of non-empty parts: the fragment lengths plus
one separator between consecutive fragments. -/
theorem joinSpace_length (ps : List (List Char)) (h : ps ≠ []) :
    (joinSpace ps).length + 1 = (ps.map List.length).sum + ps.length := by
  induction ps with
  | nil => exact absurd rfl h
  | cons p ps ih =>
    cases ps with
    | nil => simp [joinSpace]
    | cons q ps2 =>
      rw [joinSpace]
      simp only [List.length_append, List.length_cons, List.map_cons, List.sum_cons]
      have hih := ih (by simp)
      simp only [List.length_cons, List.map_cons, List.sum_cons] at hih
      omega

/-- A list of non-empty fragments has no more fragments than total
characters. -/
theorem length_le_sum_of_ne_nil (ps : List (List Char))
    (h : ∀ p ∈ ps, p ≠ []) : ps.length ≤ (ps.map List.length).sum := by
  induction ps with
  | nil => simp
  | cons p ps ih =>
    simp only [List.length_cons, List.map_cons, List.sum_cons]
    have h1 : 1 ≤ p.length := by
      rcases hp : p with - | ⟨c, t⟩
      · exact absurd hp (h p (List.mem_cons_self p ps))
      · simp
    have hih := ih (fun q hq => h q (List.mem_cons_of_mem _ hq))
    omega

/-- C3 (amended): each assembled group excerpt is the space join of the
accumulated fragments; the fragment-character total never exceeds the
budget (accumulation stops as soon as the budget is met, with no
character overshoot); the joined text can exceed the budget only by the
single joining spaces, hence by at most the number of fragments minus
one, and its length is at most twice the budget. -/
theorem c3_excerpt_budget (es : List Entry) (key : Entry → String)
    (maxChars : Nat) :
    ∀ g ex, (g, ex) ∈ build_grouped_excerpts es key maxChars →
      ex = joinSpace (buildParts maxChars (groupRows es key g) 0)
      ∧ ((buildParts maxChars (groupRows es key g) 0).map List.length).sum
          ≤ maxChars
      ∧ (∀ total, maxChars ≤ total →
          buildParts maxChars (groupRows es key g) total = [])
      ∧ ex.length + 1 ≤ maxChars
          + (buildParts maxChars (groupRows es key g) 0).length + 1
      ∧ ex.length ≤ 2 * maxChars := by
  intro g ex hmem
  unfold build_grouped_excerpts at hmem
  obtain ⟨g2, hg2, heq⟩ := List.mem_map.mp hmem
  rw [Prod.mk.injEq] at heq
  obtain ⟨h1, h2⟩ := heq
  subst h1
  have hsum := buildParts_sum_le maxChars (groupRows es key g2) 0 (Nat.zero_le _)
  rw [Nat.zero_add] at hsum
  have hne := buildParts_ne_nil maxChars (groupRows es key g2) 0
  have hcnt := length_le_sum_of_ne_nil _ hne
  refine ⟨h2.symm, hsum, fun total ht => buildParts_stops _ _ total ht, ?_, ?_⟩
  · rcases hbp : buildParts maxChars (groupRows es key g2) 0 with - | ⟨p, ps⟩
    · rw [← h2, hbp]
      simp [joinSpace]
    · have hlen := joinSpace_length (p :: ps) (by simp)
      rw [hbp] at hsum hcnt
      rw [← h2, hbp]
      omega
  · rcases hbp : buildParts maxChars (groupRows es key g2) 0 with - | ⟨p, ps⟩
    · rw [← h2, hbp]
      simp [joinSpace]
    · have hlen := joinSpace_length (p :: ps) (by simp)
      rw [hbp] at hsum hcnt
      rw [← h2, hbp]
      omega

/-- C3 witness: the bounds instantiated on a concrete three-entry group
with budget three. -/
theorem c3_excerpt_budget_witness :
    (joinSpace (buildParts 3 (groupRows
        [⟨⟨2024, 1, 1⟩, "g", "m", "a"⟩, ⟨⟨2024, 1, 2⟩, "g", "m", "a"⟩,
         ⟨⟨2024, 1, 3⟩, "g", "m", "a"⟩] (fun e => e.day_of_week) "g") 0)).length
      ≤ 2 * 3 :=
  ((c3_excerpt_budget
    [⟨⟨2024, 1, 1⟩, "g", "m", "a"⟩, ⟨⟨2024, 1, 2⟩, "g", "m", "a"⟩,
     ⟨⟨2024, 1, 3⟩, "g", "m", "a"⟩] (fun e => e.day_of_week) 3) "g"
    (joinSpace (buildParts 3 (groupRows
        [⟨⟨2024, 1, 1⟩, "g", "m", "a"⟩, ⟨⟨2024, 1, 2⟩, "g", "m", "a"⟩,
         ⟨⟨2024, 1, 3⟩, "g", "m", "a"⟩] (fun e => e.day_of_week) "g") 0))
    (by decide)).2.2.2.2

/-- C3 counterexample to the claim as stated: with budget three and
three one-letter texts in one group the assembled excerpt has length
five, exceeding the budget by two although every fragment (hence every
trailing word) has length one — the space join, not word truncation, is
what overshoots. -/
theorem c3_counterexample :
    build_grouped_excerpts
        [⟨⟨2024, 1, 1⟩, "g", "m", "a"⟩, ⟨⟨2024, 1, 2⟩, "g", "m", "a"⟩,
         ⟨⟨2024, 1, 3⟩, "g", "m", "a"⟩] (fun e => e.day_of_week) 3
      = [("g", ['a', ' ', 'a', ' ', 'a'])]
    ∧ 3 + 1 < (['a', ' ', 'a', ' ', 'a'] : List Char).length
    ∧ (∀ p ∈ buildParts 3 (groupRows
        [⟨⟨2024, 1, 1⟩, "g", "m", "a"⟩, ⟨⟨2024, 1, 2⟩, "g", "m", "a"⟩,
         ⟨⟨2024, 1, 3⟩, "g", "m", "a"⟩] (fun e => e.day_of_week) "g") 0,
        p.length = 1) := by
  refine ⟨by decide, by decide, by decide⟩

/-! ## Summarizer Gateway (src/utils.py ollama_chat) -/

/-- Outcome of the one HTTP POST in ollama_chat, seen through the
requests library: a raised request exception, or a response carrying a
status code and a body.  The body is none when parsing the response as
JSON raises, and otherwise holds the extracted message content field,
itself absent (none) when the response carries no such field. -/
inductive NetOutcome where
  | netError
  | response (status : Nat) (body : Option (Option String))
deriving DecidableEq, Repr

/-- src/utils.py ollama_chat: a missing or empty key returns none before
any request; raise_for_status raises on the client and server error
status classes (four hundred to five hundred ninety nine); every raised
exception is caught and becomes none; otherwise the content field is
returned, itself none when absent. -/
def ollama_chat (prompt : String) (apiKey : Option String)
    (net : NetOutcome) : Option String :=
  match apiKey with
  | none => none
  | some k =>
    if k = "" then none
    else
      match net with
      | NetOutcome.netError => none
      | NetOutcome.response status body =>
        if 400 ≤ status ∧ status < 600 then none
        else
          match body with
          | none => none
          | some content => content

/-- C6: the summarizer gateway returns nothing immediately when the
credential is absent or empty, with a result independent of the network
(no call is observable); a network error, an error status, a malformed
body, or a missing content field each give nothing; no outcome
propagates an exception, every outcome is a plain optional string. -/
theorem c6_ollama_chat_failsoft :
    (∀ p net net2, ollama_chat p none net = none
      ∧ ollama_chat p (some "") net = none
      ∧ ollama_chat p none net = ollama_chat p none net2
      ∧ ollama_chat p (some "") net = ollama_chat p (some "") net2)
    ∧ (∀ p k, ollama_chat p k NetOutcome.netError = none)
    ∧ (∀ p k s b, 400 ≤ s → s < 600 →
        ollama_chat p k (NetOutcome.response s b) = none)
    ∧ (∀ p k s, ollama_chat p k (NetOutcome.response s none) = none)
    ∧ (∀ p k s, ollama_chat p k (NetOutcome.response s (some none)) = none) := by
  refine ⟨?_, ?_, ?_, ?_, ?_⟩
  · intro p net net2
    refine ⟨rfl, by simp [ollama_chat], rfl, by simp [ollama_chat]⟩
  · intro p k
    rcases k with - | s
    · rfl
    · by_cases h : s = "" <;> simp [ollama_chat, h]
  · intro p k s b h4 h6
    rcases k with - | t
    · rfl
    · by_cases h : t = ""
      · simp [ollama_chat, h]
      · simp only [ollama_chat, if_neg h, if_pos (And.intro h4 h6)]
  · intro p k s
    rcases k with - | t
    · rfl
    · by_cases h : t = "" <;> by_cases h2 : 400 ≤ s ∧ s < 600 <;>
        simp [ollama_chat, h, h2]
  · intro p k s
    rcases k with - | t
    · rfl
    · by_cases h : t = "" <;> by_cases h2 : 400 ≤ s ∧ s < 600 <;>
        simp [ollama_chat, h, h2]

/-- C6 witness: a server error with a present key gives nothing. -/
theorem c6_ollama_chat_failsoft_witness :
    ollama_chat "p" (some "key") (NetOutcome.response 500 (some (some "x")))
      = none :=
  c6_ollama_chat_failsoft.2.2.1 "p" (some "key") 500 (some (some "x"))
    (by decide) (by decide)

/-! ## JSON extraction from a model reply (src/report_builder.py)

_extract_json_from_reply strips the reply, tries the two fence regexes
(with and then without the optional json tag), then the greedy
brace-to-brace regex, then the whole reply, handing each candidate to
json.loads and returning the first parse that succeeds.  json.loads is
a stdlib function outside src/, so the extractor is parameterized by a
predicate saying which strings parse; a concrete mini model of loads is
given further below for concrete evaluation. -/

/-- The backquote character. -/
def backquote : Char := Char.ofNat 96

/-- The opening curly brace character. -/
def lbrace : Char := Char.ofNat 123

/-- The closing curly brace character. -/
def rbrace : Char := Char.ofNat 125

/-- A three-backquote code fence. -/
def fenceChars : List Char := [backquote, backquote, backquote]

/-- The json fence tag. -/
def jsonTagChars : List Char := ['j', 's', 'o', 'n']

/-- The lazily captured content up to the first closing fence; none when
no closing fence follows. -/
def contentToFence : List Char → Option (List Char)
  | [] => none
  | c :: rest =>
    if fenceChars.isPrefixOf (c :: rest) then some []
    else (contentToFence rest).map (fun t => c :: t)

/-- Attempt the fence pattern anchored at this position: an opening
fence, optionally the json tag (greedy, as the regex takes it when
present), greedy whitespace, then the lazy content up to a closing
fence. -/
def fenceMatchAt (tag : Bool) (s : List Char) : Option (List Char) :=
  if fenceChars.isPrefixOf s then
    if tag && jsonTagChars.isPrefixOf (s.drop 3) then
      contentToFence (((s.drop 3).drop 4).dropWhile isWsChar)
    else
      contentToFence ((s.drop 3).dropWhile isWsChar)
  else none

/-- re.search of the fence pattern: the first start position at which
the pattern matches. -/
def fenceSearch (tag : Bool) : List Char → Option (List Char)
  | [] => none
  | c :: rest =>
    match fenceMatchAt tag (c :: rest) with
    | some content => some content
    | none => fenceSearch tag rest

/-- The prefix of the input through its last closing brace; none when no
closing brace occurs. -/
def takeToLastRBrace (s : List Char) : Option (List Char) :=
  if (s.reverse.dropWhile (fun c => c != rbrace)).isEmpty then none
  else some (s.reverse.dropWhile (fun c => c != rbrace)).reverse

/-- re.search of the greedy brace pattern: from the first opening brace
that has a closing brace after it, through the last closing brace. -/
def braceSpan : List Char → Option (List Char)
  | [] => none
  | c :: rest =>
    if c = lbrace then
      match takeToLastRBrace rest with
      | some t => some (c :: t)
      | none => braceSpan rest
    else braceSpan rest

/-- One try-loads-except step of the extractor: return the candidate if
it parses, else fall through. -/
def tryCand (jsonOk : String → Bool) (cand : Option String)
    (fallback : Option String) : Option String :=
  match cand with
  | some s => if jsonOk s then some s else fallback
  | none => fallback

/-- src/report_builder.py _extract_json_from_reply, parameterized by the
json.loads success predicate: strip the reply, then try the tagged
fence content (stripped), the untagged fence content (stripped), the
greedy brace span, and the whole reply, in that order. -/
def extract_json (jsonOk : String → Bool) (reply0 : String) : Option String :=
  tryCand jsonOk
    ((fenceSearch true (pyStrip reply0.toList)).map
      (fun c => String.mk (pyStrip c)))
    (tryCand jsonOk
      ((fenceSearch false (pyStrip reply0.toList)).map
        (fun c => String.mk (pyStrip c)))
      (tryCand jsonOk
        ((braceSpan (pyStrip reply0.toList)).map String.mk)
        (if jsonOk (String.mk (pyStrip reply0.toList))
          then some (String.mk (pyStrip reply0.toList)) else none)))

/-- JSON whitespace accepted between tokens by json.loads. -/
def skipJsonWs (s : List Char) : List Char := s.dropWhile isWsChar

/-- Characters that may continue a JSON number. -/
def isNumChar (c : Char) : Bool :=
  c.isDigit || c = '-' || c = '+' || c = '.' || c = 'e' || c = 'E'

/-- Body of a JSON string after the opening quote, with fuel: a
backslash consumes the following character, the closing quote ends the
string.  Returns the remaining input. -/
def parseStrBody : Nat → List Char → Option (List Char)
  | 0, _ => none
  | _, [] => none
  | fuel + 1, c :: rest =>
    if c = '\"' then some rest
    else if c = '\\' then
      match rest with
      | [] => none
      | _ :: r2 => parseStrBody fuel r2
    else parseStrBody fuel rest

mutual

/-- Modelled from the spec and the stdlib behavior of json.loads (not
part of src/): recognize one JSON value and return the remaining input.
Fuel bounds the recursion; numbers are recognized as a sign or digit
followed by number characters, which is faithful for the reply shapes
under analysis. -/
def parseVal : Nat → List Char → Option (List Char)
  | 0, _ => none
  | fuel + 1, s =>
    match s with
    | [] => none
    | c :: rest =>
      if c = '\"' then parseStrBody (rest.length + 1) rest
      else if c = lbrace then parseObj fuel (skipJsonWs rest)
      else if c = '[' then parseArr fuel (skipJsonWs rest)
      else if ['t', 'r', 'u', 'e'].isPrefixOf s then some (s.drop 4)
      else if ['f', 'a', 'l', 's', 'e'].isPrefixOf s then some (s.drop 5)
      else if ['n', 'u', 'l', 'l'].isPrefixOf s then some (s.drop 4)
      else if c.isDigit || c = '-' then some (s.dropWhile isNumChar)
      else none

/-- Inside an object after the opening brace and whitespace: empty
object or a first pair. -/
def parseObj : Nat → List Char → Option (List Char)
  | 0, _ => none
  | fuel + 1, s =>
    match s with
    | [] => none
    | c :: rest => if c = rbrace then some rest else parseObjPairs fuel s

/-- One or more comma-separated pairs then the closing brace. -/
def parseObjPairs : Nat → List Char → Option (List Char)
  | 0, _ => none
  | fuel + 1, s =>
    match parsePair fuel s with
    | none => none
    | some r2 =>
      match skipJsonWs r2 with
      | [] => none
      | d :: r3 =>
        if d = ',' then parseObjPairs fuel (skipJsonWs r3)
        else if d = rbrace then some r3
        else none

/-- A quoted key, a colon, and a value. -/
def parsePair : Nat → List Char → Option (List Char)
  | 0, _ => none
  | fuel + 1, s =>
    match s with
    | [] => none
    | c :: rest =>
      if c = '\"' then
        match parseStrBody (rest.length + 1) rest with
        | none => none
        | some r2 =>
          match skipJsonWs r2 with
          | [] => none
          | d :: r3 => if d = ':' then parseVal fuel (skipJsonWs r3) else none
      else none

/-- Inside an array after the opening bracket and whitespace: empty
array or a first element. -/
def parseArr : Nat → List Char → Option (List Char)
  | 0, _ => none
  | fuel + 1, s =>
    match s with
    | [] => none
    | c :: rest => if c = ']' then some rest else parseArrElems fuel s

/-- One or more comma-separated elements then the closing bracket. -/
def parseArrElems : Nat → List Char → Option (List Char)
  | 0, _ => none
  | fuel + 1, s =>
    match parseVal fuel s with
    | none => none
    | some r2 =>
      match skipJsonWs r2 with
      | [] => none
      | d :: r3 =>
        if d = ',' then parseArrElems fuel (skipJsonWs r3)
        else if d = ']' then some r3
        else none

end

/-- Modelled from the stdlib behavior of json.loads (not part of src/):
a string parses when it holds exactly one JSON value with nothing but
whitespace around it; trailing data is an error. -/
def jsonOkImpl (s : String) : Bool :=
  match parseVal (4 * (s.length + 1)) (skipJsonWs s.toList) with
  | some rest => (skipJsonWs rest).isEmpty
  | none => false

/-- Balanced-brace scan at depth: the span up to the brace closing the
opening one. -/
def takeBalanced : Nat → List Char → Option (List Char)
  | _, [] => none
  | depth, c :: rest =>
    if c = rbrace then
      if depth = 1 then some [c]
      else (takeBalanced (depth - 1) rest).map (fun t => c :: t)
    else if c = lbrace then (takeBalanced (depth + 1) rest).map (fun t => c :: t)
    else (takeBalanced depth rest).map (fun t => c :: t)

/-- Modelled from the claim words: the first top-level brace-to-brace
span of the reply, balanced at the braces. -/
def specTopLevelSpan : List Char → Option (List Char)
  | [] => none
  | c :: rest =>
    if c = lbrace then (takeBalanced 1 rest).map (fun t => c :: t)
    else specTopLevelSpan rest

/-- The head surviving a dropWhile falsifies the predicate. -/
theorem dropWhile_head_false {p : Char → Bool} (l : List Char) (c : Char)
    (rest : List Char) (h : l.dropWhile p = c :: rest) : p c = false := by
  induction l with
  | nil => exact List.noConfusion h
  | cons d t ih =>
    rw [List.dropWhile_cons] at h
    by_cases hd : p d = true
    · rw [if_pos hd] at h; exact ih h
    · rw [if_neg hd] at h
      obtain ⟨h1, -⟩ := List.cons.inj h
      subst h1
      simpa using hd

/-- dropWhile passes over a block that satisfies the predicate
throughout. -/
theorem dropWhile_append_all {p : Char → Bool} (a b : List Char)
    (h : ∀ c ∈ a, p c = true) : (a ++ b).dropWhile p = b.dropWhile p := by
  induction a with
  | nil => rfl
  | cons d t ih =>
    rw [List.cons_append, List.dropWhile_cons,
      if_pos (h d (List.mem_cons_self d t))]
    exact ih (fun c hc => h c (List.mem_cons_of_mem _ hc))

/-- dropWhile empties exactly the lists it accepts throughout. -/
theorem dropWhile_eq_nil_iff_all {p : Char → Bool} (l : List Char) :
    l.dropWhile p = [] ↔ ∀ c ∈ l, p c = true := by
  induction l with
  | nil => simp
  | cons d t ih =>
    rw [List.dropWhile_cons]
    by_cases hd : p d = true
    · rw [if_pos hd, ih]
      simp [hd]
    · rw [if_neg hd]
      simp [hd]

/-- No closing brace, no last-brace prefix. -/
theorem takeToLastRBrace_none (s : List Char) :
    takeToLastRBrace s = none ↔ rbrace ∉ s := by
  unfold takeToLastRBrace
  by_cases he : (s.reverse.dropWhile (fun c => c != rbrace)).isEmpty = true
  · rw [if_pos he]
    simp only [true_iff]
    intro hmem
    rw [List.isEmpty_iff] at he
    have := (dropWhile_eq_nil_iff_all s.reverse).mp he rbrace
      (List.mem_reverse.mpr hmem)
    simp at this
  · rw [if_neg he]
    constructor
    · intro h; exact absurd h (by simp)
    · intro hnot
      exfalso
      apply he
      rw [List.isEmpty_iff, dropWhile_eq_nil_iff_all]
      intro c hc
      rw [bne_iff_ne]
      intro hx
      exact hnot (hx ▸ List.mem_reverse.mp hc)

/-- The last-brace prefix characterized: the input splits at its last
closing brace. -/
theorem takeToLastRBrace_iff (s t : List Char) :
    takeToLastRBrace s = some t ↔
      ∃ mid post, s = mid ++ [rbrace] ++ post ∧ rbrace ∉ post
        ∧ t = mid ++ [rbrace] := by
  constructor
  · intro h
    unfold takeToLastRBrace at h
    by_cases he : (s.reverse.dropWhile (fun c => c != rbrace)).isEmpty = true
    · rw [if_pos he] at h; exact absurd h (by simp)
    · rw [if_neg he] at h
      have ht := Option.some.inj h
      obtain ⟨d, r2, hd⟩ : ∃ d r2,
          s.reverse.dropWhile (fun c => c != rbrace) = d :: r2 := by
        rcases hx : s.reverse.dropWhile (fun c => c != rbrace) with - | ⟨d, r2⟩
        · rw [hx] at he; exact absurd rfl he
        · exact ⟨d, r2, rfl⟩
      have hdr : d = rbrace := by
        have hdf := dropWhile_head_false (p := fun c => c != rbrace)
          s.reverse d r2 hd
        simpa using hdf
      subst hdr
      have hsplit := List.takeWhile_append_dropWhile
        (p := fun c => c != rbrace) (l := s.reverse)
      have hs : s = (s.reverse.dropWhile (fun c => c != rbrace)).reverse
          ++ (s.reverse.takeWhile (fun c => c != rbrace)).reverse := by
        have hcong := congrArg List.reverse hsplit
        rw [List.reverse_append, List.reverse_reverse] at hcong
        exact hcong.symm
      refine ⟨r2.reverse, (s.reverse.takeWhile (fun c => c != rbrace)).reverse,
        ?_, ?_, ?_⟩
      · conv_lhs => rw [hs]
        rw [hd, List.reverse_cons]
      · intro hmem
        have himp := List.mem_takeWhile_imp (List.mem_reverse.mp hmem)
        simp at himp
      · rw [← ht, hd, List.reverse_cons]
  · rintro ⟨mid, post, hs, hpost, ht⟩
    have hrev : s.reverse = post.reverse ++ rbrace :: mid.reverse := by
      rw [hs]
      simp [List.reverse_append]
    have hdrop : s.reverse.dropWhile (fun c => c != rbrace)
        = rbrace :: mid.reverse := by
      rw [hrev, dropWhile_append_all]
      · rw [List.dropWhile_cons, if_neg (by simp)]
      · intro c hc
        rw [bne_iff_ne]
        intro hx
        exact hpost (hx ▸ List.mem_reverse.mp hc)
    unfold takeToLastRBrace
    rw [if_neg (by simp [hdrop]), hdrop, List.reverse_cons,
      List.reverse_reverse, ht]

/-- Two decompositions at an occurrence with tails free of the marker
agree. -/
theorem last_occurrence_unique (x : Char) (a p b q : List Char)
    (h : a ++ [x] ++ p = b ++ [x] ++ q) (hp : x ∉ p) (hq : x ∉ q) :
    a = b ∧ p = q := by
  have key : ∀ (u v : List Char), x ∉ v →
      (u ++ [x] ++ v).reverse.dropWhile (fun c => c != x) = x :: u.reverse := by
    intro u v hv
    rw [List.reverse_append, List.reverse_append]
    rw [dropWhile_append_all]
    · rw [show ([x] : List Char).reverse = [x] from rfl, List.singleton_append,
        List.dropWhile_cons, if_neg (by simp)]
    · intro c hc
      rw [bne_iff_ne]
      intro hx
      exact hv (hx ▸ List.mem_reverse.mp hc)
  have h1 := key a p hp
  have h2 := key b q hq
  rw [h] at h1
  rw [h2] at h1
  obtain ⟨-, hab⟩ := List.cons.inj h1
  have hab2 : a = b := by
    have hr := congrArg List.reverse hab
    simpa using hr.symm
  subst hab2
  refine ⟨rfl, ?_⟩
  have := List.append_cancel_left h
  exact this

/-- The greedy brace span characterized: it runs from the first opening
brace through the last closing brace, and exists exactly when a closing
brace follows some opening brace. -/
theorem braceSpan_iff (cs t : List Char) :
    braceSpan cs = some t ↔
      ∃ pre mid post, cs = pre ++ t ++ post ∧ lbrace ∉ pre ∧ rbrace ∉ post
        ∧ t = lbrace :: mid ++ [rbrace] := by
  induction cs with
  | nil =>
    simp only [braceSpan]
    constructor
    · intro h; exact absurd h (by simp)
    · rintro ⟨pre, mid, post, hcs, -, -, ht⟩
      subst ht
      exact absurd hcs.symm (by simp)
  | cons c rest ih =>
    rw [braceSpan]
    by_cases hc : c = lbrace
    · rw [if_pos hc]
      subst hc
      rcases htl : takeToLastRBrace rest with - | t2
      · have hnone : rbrace ∉ rest := (takeToLastRBrace_none rest).mp htl
        constructor
        · intro h
          exfalso
          obtain ⟨pre, mid, post, hrest, -, -, ht⟩ := ih.mp h
          apply hnone
          rw [hrest, ht]
          simp
        · rintro ⟨pre, mid, post, hcs, hpre, hpost, ht⟩
          exfalso
          cases pre with
          | cons d pre2 =>
            obtain ⟨h1, -⟩ := List.cons.inj hcs
            exact hpre (h1 ▸ List.mem_cons_self d pre2)
          | nil =>
            rw [List.nil_append, ht] at hcs
            obtain ⟨-, h2⟩ := List.cons.inj hcs
            apply hnone
            rw [h2]
            simp
      · obtain ⟨mid, post, hrest, hpost, ht2⟩ := (takeToLastRBrace_iff rest t2).mp htl
        constructor
        · intro h
          have ht := Option.some.inj h
          refine ⟨[], mid, post, ?_, by simp, hpost, ?_⟩
          · rw [List.nil_append, ← ht, ht2, hrest]
            simp
          · rw [← ht, ht2]
            simp
        · rintro ⟨pre, mid2, post2, hcs, hpre, hpost2, htt⟩
          have hpre0 : pre = [] := by
            cases pre with
            | nil => rfl
            | cons d pre2 =>
              obtain ⟨h1, -⟩ := List.cons.inj hcs
              exact absurd (h1 ▸ List.mem_cons_self d pre2) hpre
          subst hpre0
          rw [List.nil_append, htt] at hcs
          obtain ⟨-, h2⟩ := List.cons.inj hcs
          obtain ⟨hmm, -⟩ := last_occurrence_unique rbrace mid post mid2 post2
            (by rw [← hrest, h2]; simp [List.append_assoc]) hpost hpost2
          rw [ht2, htt, hmm]
          rfl
    · rw [if_neg hc, ih]
      constructor
      · rintro ⟨pre, mid, post, hrest, hpre, hpost, ht⟩
        refine ⟨c :: pre, mid, post,
          by rw [hrest]; simp [List.append_assoc], ?_, hpost, ht⟩
        intro hmem
        rcases List.mem_cons.mp hmem with h1 | h1
        · exact hc h1.symm
        · exact hpre h1
      · rintro ⟨pre, mid, post, hcs, hpre, hpost, ht⟩
        cases pre with
        | nil =>
          rw [List.nil_append, ht, List.cons_append] at hcs
          obtain ⟨h1, -⟩ := List.cons.inj hcs
          exact absurd h1 hc
        | cons d pre2 =>
          rw [List.cons_append, List.cons_append] at hcs
          obtain ⟨h1, h2⟩ := List.cons.inj hcs
          refine ⟨pre2, mid, post, by rw [h2, List.append_assoc], ?_, hpost, ht⟩
          intro hmem
          exact hpre (List.mem_cons_of_mem _ hmem)

/-- One try-loads-except step prepends its candidate to a first-success
search. -/
theorem tryCand_find (jsonOk : String → Bool) (cand : Option String)
    (fb : Option String) (l : List String) (hfb : fb = List.find? jsonOk l) :
    tryCand jsonOk cand fb = List.find? jsonOk (cand.toList ++ l) := by
  rcases cand with - | s
  · simpa [tryCand] using hfb
  · show (if jsonOk s then some s else fb) = List.find? jsonOk (s :: l)
    by_cases h : jsonOk s
    · rw [if_pos h, List.find?_cons_of_pos _ h]
    · rw [if_neg h, List.find?_cons_of_neg _ (by simp [h]), hfb]

/-- C8 (amended): the extractor takes the first candidate accepted by
the parse, in order: tagged fence content, untagged fence content, the
greedy brace span, the whole stripped reply; when no candidate parses
the caller receives nothing.  The brace candidate is the span from the
first opening brace through the LAST closing brace of the reply, not
the first balanced top-level object. -/
theorem c8_extract_json (jsonOk : String → Bool) (reply0 : String) :
    (extract_json jsonOk reply0
      = List.find? jsonOk
          (((fenceSearch true (pyStrip reply0.toList)).map
              (fun c => String.mk (pyStrip c))).toList
            ++ (((fenceSearch false (pyStrip reply0.toList)).map
              (fun c => String.mk (pyStrip c))).toList
            ++ (((braceSpan (pyStrip reply0.toList)).map String.mk).toList
            ++ [String.mk (pyStrip reply0.toList)]))))
    ∧ (∀ cs t, braceSpan cs = some t ↔
        ∃ pre mid post, cs = pre ++ t ++ post ∧ lbrace ∉ pre ∧ rbrace ∉ post
          ∧ t = lbrace :: mid ++ [rbrace]) := by
  constructor
  · have h3 : (if jsonOk (String.mk (pyStrip reply0.toList))
        then some (String.mk (pyStrip reply0.toList)) else none)
        = List.find? jsonOk [String.mk (pyStrip reply0.toList)] := by
      by_cases h : jsonOk (String.mk (pyStrip reply0.toList))
      · rw [if_pos h, List.find?_cons_of_pos _ h]
      · rw [if_neg h, List.find?_cons_of_neg _ h]
        rfl
    have h2 := tryCand_find jsonOk
      ((braceSpan (pyStrip reply0.toList)).map String.mk) _ _ h3
    have h1 := tryCand_find jsonOk
      ((fenceSearch false (pyStrip reply0.toList)).map
        (fun c => String.mk (pyStrip c))) _ _ h2
    exact tryCand_find jsonOk
      ((fenceSearch true (pyStrip reply0.toList)).map
        (fun c => String.mk (pyStrip c))) _ _ h1
  · exact braceSpan_iff

/-- C8 counterexample to the claim as stated: a reply holding two
top-level objects in sequence.  Under the claim reading the first
top-level span parses and is returned; the code greedily spans from the
first opening to the last closing brace, which fails to parse, the
whole reply also fails, and the caller receives nothing. -/
theorem c8_counterexample :
    extract_json jsonOkImpl "\x7b\"a\":1\x7d \x7b\"b\":2\x7d" = none
    ∧ (specTopLevelSpan
        (pyStrip (String.toList "\x7b\"a\":1\x7d \x7b\"b\":2\x7d"))).map String.mk
        = some "\x7b\"a\":1\x7d"
    ∧ jsonOkImpl "\x7b\"a\":1\x7d" = true
    ∧ (braceSpan
        (pyStrip (String.toList "\x7b\"a\":1\x7d \x7b\"b\":2\x7d"))).map String.mk
        = some "\x7b\"a\":1\x7d \x7b\"b\":2\x7d"
    ∧ jsonOkImpl "\x7b\"a\":1\x7d \x7b\"b\":2\x7d" = false := by
  refine ⟨by decide, by decide, by decide, by decide, by decide⟩

/-! ## Report Assembler (src/report_builder.py build_report)

The build is embedded as a pure function from the analysis-window
collection, the trend phrases, the credential, a network oracle keyed
by prompt, and the json.loads model, to the five AI-dependent report
sections plus a count of gateway calls issued.  Chart HTML, the CSS
skeleton, the timestamped filename, and the file write are outside the
claims under verification and are not modelled; prompt texts are
abbreviated to markers around their data, because every claim treats
the prompt as opaque. -/

/-- The fixed placeholder of every AI-dependent section. -/
def placeholderText : String :=
  "Not available (set OLLAMA_API_KEY for AI summaries)."

/-- Python truthiness of the credential as build_report tests it. -/
def keyPresent : Option String → Bool
  | none => false
  | some s => s != ""

/-- Line splitting of a reply (Python splitlines on the newline
character: a trailing newline yields no extra empty line). -/
def pyLinesAux : List Char → List Char → List (List Char)
  | [], acc => [acc.reverse]
  | c :: cs, acc =>
    if c = '\n' then acc.reverse :: pyLinesAux cs [] else pyLinesAux cs (c :: acc)

/-- Python str.splitlines restricted to the newline character. -/
def pyLines (s : List Char) : List (List Char) :=
  if s.isEmpty then []
  else if s.getLast? = some '\n' then (pyLinesAux s []).dropLast
  else pyLinesAux s []

/-- src/report_builder.py _raw_to_bullet_list: the non-empty stripped
lines as list items; an empty line set falls back to a paragraph. -/
def raw_to_bullet_list (raw : String) : String :=
  if ((pyLines raw.toList).map pyStrip).filter (fun l => l ≠ []) = [] then
    if raw = "" then "<p>—</p>" else "<p>" ++ raw ++ "</p>"
  else
    "<ul>"
      ++ String.join ((((pyLines raw.toList).map pyStrip).filter
            (fun l => l ≠ [])).map (fun ln => "<li>" ++ String.mk ln ++ "</li>"))
      ++ "</ul>"

/-- The table rendering of parsed observations.  No claim under
verification inspects this rendering, so the parsed object is carried
as its winning JSON span inside the three table headers. -/
def observations_to_html_tables (span : String) : String :=
  "<h4>By month</h4><h4>By day of week</h4><h4>By time of day</h4>" ++ span

/-- The canonical weekday order of the report. -/
def dowOrder : List String :=
  ["Monday", "Tuesday", "Wednesday", "Thursday", "Friday", "Saturday", "Sunday"]

/-- Stable categorical sort by weekday, dropping entries whose weekday
is not canonical (sort_values plus dropna on the categorical column). -/
def sortByDow (es : List Entry) : List Entry :=
  dowOrder.flatMap (fun d => es.filter (fun e => e.day_of_week = d))

/-- The month label of an entry used as the month grouping column. -/
def monthLabel (e : Entry) : String :=
  toString e.date.year ++ "-" ++ toString e.date.month

/-- Marker prompt for the overall activity narrative. -/
def promptOverallActivity (sample : String) : String :=
  "overall-activity:" ++ sample

/-- Marker prompt for the overall emotion narrative. -/
def promptOverallEmotion (sample : String) : String :=
  "overall-emotion:" ++ sample

/-- Marker prompt for the grouped activity observations. -/
def promptObsActivity (payload : String) : String :=
  "observations-activity:" ++ payload

/-- Marker prompt for the grouped emotion observations. -/
def promptObsEmotion (payload : String) : String :=
  "observations-emotion:" ++ payload

/-- Marker prompt for one trend phrase summary. -/
def promptTrend (kw : String) (counts : String) : String :=
  "trend:" ++ kw ++ ":" ++ counts

/-- The grouped-excerpt payload handed to the observation prompts. -/
def excerptsPayload (byMonth byDow byTod : List (String × List Char)) : String :=
  String.join ((byMonth ++ byDow ++ byTod).map
    (fun r => r.1 ++ "=" ++ String.mk r.2 ++ ";"))

/-- The serialized monthly counts handed to a trend prompt. -/
def countsPayload (counts : List ((Nat × Nat) × Nat)) : String :=
  String.join (counts.map
    (fun r => toString r.1.1 ++ "-" ++ toString r.1.2 ++ ":" ++ toString r.2 ++ ";"))

/-- One guarded narrative request: placeholder unless the reply is
truthy, in which case the stripped reply. -/
def narrative (apiKey : Option String) (net : String → NetOutcome)
    (prompt : String) : String :=
  match ollama_chat prompt apiKey (net prompt) with
  | some s => if s = "" then placeholderText else String.mk (pyStrip s.toList)
  | none => placeholderText

/-- One guarded observation request: placeholder unless the reply is
truthy; a truthy reply is stripped, JSON-extracted into tables on
success, and bulleted raw on failure. -/
def observation (apiKey : Option String) (net : String → NetOutcome)
    (jsonOk : String → Bool) (prompt : String) : String :=
  match ollama_chat prompt apiKey (net prompt) with
  | some s =>
    if s = "" then placeholderText
    else
      match extract_json jsonOk (String.mk (pyStrip s.toList)) with
      | some span => observations_to_html_tables span
      | none => raw_to_bullet_list (String.mk (pyStrip s.toList))
  | none => placeholderText

/-- The five AI-dependent report sections. -/
structure ReportSections where
  activity : String
  emotion : String
  obsActivity : String
  obsEmotion : String
  trendSummaries : List (String × String)
deriving DecidableEq, Repr

/-- src/report_builder.py build_report, reduced to its AI-dependent
sections and the number of gateway calls made: each of the two overall
narratives is requested only when the credential is truthy and the
overall sample is non-empty; the two observation requests only when the
credential is truthy and some group exists; each trend summary only
when the credential is truthy and the phrase has a non-empty monthly
series; every section falls back to the fixed placeholder otherwise. -/
def build_report (es : List Entry) (trendKeywords : List String)
    (apiKey : Option String) (net : String → NetOutcome)
    (jsonOk : String → Bool) : ReportSections × Nat :=
  let overallText := overall_sample es 2500
  let activity :=
    if keyPresent apiKey && !overallText.isEmpty then
      (narrative apiKey net (promptOverallActivity (String.mk overallText)), 1)
    else (placeholderText, 0)
  let emotion :=
    if keyPresent apiKey && !overallText.isEmpty then
      (narrative apiKey net (promptOverallEmotion (String.mk overallText)), 1)
    else (placeholderText, 0)
  let byMonth := build_grouped_excerpts es monthLabel 600
  let byDow := build_grouped_excerpts (sortByDow es) (fun e => e.day_of_week) 600
  let byTod := build_grouped_excerpts es (fun e => e.time_of_day) 600
  let obs :=
    if keyPresent apiKey
        && (!byMonth.isEmpty || !byDow.isEmpty || !byTod.isEmpty) then
      (observation apiKey net jsonOk
          (promptObsActivity (excerptsPayload byMonth byDow byTod)),
        observation apiKey net jsonOk
          (promptObsEmotion (excerptsPayload byMonth byDow byTod)), 2)
    else (placeholderText, placeholderText, 0)
  let trends := trendKeywords.map (fun kw =>
    if keyPresent apiKey && !(phrase_counts_by_month es kw).isEmpty then
      ((kw, narrative apiKey net
          (promptTrend kw (countsPayload (phrase_counts_by_month es kw)))), 1)
    else ((kw, placeholderText), 0))
  (⟨activity.1, emotion.1, obs.1, obs.2.1, trends.map (fun r => r.1)⟩,
    activity.2 + emotion.2 + obs.2.2 + (trends.map (fun r => r.2)).sum)

/-- Summing a list of zeros gives zero. -/
theorem sum_map_zero_eq_zero {α : Type} (l : List α) :
    (l.map (fun _ => (0 : Nat))).sum = 0 := by
  induction l with
  | nil => rfl
  | cons a t ih => simp [ih]

/-- C7: with an absent credential the build completes, every
AI-dependent section (the two overall narratives, the two observation
sections, and one summary per trend phrase) holds the fixed placeholder
text, and zero gateway calls are made, whatever the network would have
answered. -/
theorem c7_build_report_no_credential (es : List Entry) (kws : List String)
    (net : String → NetOutcome) (jsonOk : String → Bool)
    (apiKey : Option String) (hkey : keyPresent apiKey = false)
    (hes : es ≠ []) :
    build_report es kws apiKey net jsonOk
      = (⟨placeholderText, placeholderText, placeholderText, placeholderText,
          kws.map (fun kw => (kw, placeholderText))⟩, 0) := by
  unfold build_report
  simp only [hkey, Bool.false_and, if_false, Bool.false_eq_true]
  rw [Prod.mk.injEq]
  constructor
  · rw [ReportSections.mk.injEq]
    refine ⟨rfl, rfl, rfl, rfl, ?_⟩
    rw [List.map_map]
    rfl
  · rw [List.map_map]
    have h0 : ((fun (r : (String × String) × Nat) => r.2) ∘
        (fun kw => ((kw, placeholderText), 0))) = fun (_ : String) => (0 : Nat) :=
      rfl
    rw [h0, sum_map_zero_eq_zero]

/-- C7 witness: a concrete one-entry window with one trend phrase and no
credential. -/
theorem c7_build_report_no_credential_witness :
    build_report [⟨⟨2024, 1, 1⟩, "Monday", "morning", "hello"⟩] ["x"] none
        (fun _ => NetOutcome.netError) (fun _ => false)
      = (⟨placeholderText, placeholderText, placeholderText, placeholderText,
          [("x", placeholderText)]⟩, 0) :=
  c7_build_report_no_credential _ _ _ _ none rfl (by simp)

/-! ## Report retrieval (src/api.py get_report)

Paths are embedded as segment lists.  Joining the reports directory with
the request filename follows pathlib: an absolute filename replaces the
base; resolve() normalizes empty, single-dot and parent segments
lexically (symbolic links are outside the model).  relative_to succeeds
exactly when the resolved reports directory is a prefix of the resolved
path, and FileResponse is modelled as returning the served path; a 404
is none.  The filesystem is an oracle from paths to existence. -/

/-- Split a filename on slashes. -/
def splitSlash : List Char → List Char → List (List Char)
  | [], acc => [acc.reverse]
  | c :: cs, acc =>
    if c = '/' then acc.reverse :: splitSlash cs [] else splitSlash cs (c :: acc)

/-- The segments of a request filename, with empty and single-dot
segments normalized away. -/
def pathSegs (filename : String) : List String :=
  ((splitSlash filename.toList []).map String.mk).filter
    (fun s => (s != "") && (s != "."))

/-- Does the request filename denote an absolute path? -/
def isAbsolute (filename : String) : Bool :=
  match filename.toList with
  | c :: _ => c = '/'
  | [] => false

/-- (REPORTS_DIR / filename).resolve(): join then normalize parent
segments lexically; at the root a parent segment stays at the root. -/
def resolvePath (base : List String) (filename : String) : List String :=
  (pathSegs filename).foldl
    (fun acc seg => if seg = ".." then acc.dropLast else acc ++ [seg])
    (if isAbsolute filename then [] else base)

/-- src/api.py get_report: not-found (none) when the resolved path
leaves the reports directory or is no existing file; otherwise serve
the file at the resolved path. -/
def get_report (base : List String) (isFile : List String → Bool)
    (filename : String) : Option (List String) :=
  if base.isPrefixOf (resolvePath base filename) then
    if isFile (resolvePath base filename) then some (resolvePath base filename)
    else none
  else none

/-- C9: the endpoint answers not-found whenever the filename resolves
outside the reports directory (path-traversal guard) and whenever the
resolved path is no existing file; it serves exactly the existing files
inside the directory; and a concrete parent-segment traversal is
rejected for every filesystem. -/
theorem c9_get_report (base : List String) (isFile : List String → Bool)
    (filename : String) :
    (¬ (base <+: resolvePath base filename) →
      get_report base isFile filename = none)
    ∧ (isFile (resolvePath base filename) = false →
      get_report base isFile filename = none)
    ∧ ((base <+: resolvePath base filename) →
      isFile (resolvePath base filename) = true →
      get_report base isFile filename = some (resolvePath base filename))
    ∧ (∀ fs, get_report ["srv", "reports"] fs "../../etc/passwd" = none)
    ∧ (∀ fs, get_report ["srv", "reports"] fs "/etc/passwd" = none) := by
  refine ⟨?_, ?_, ?_, ?_, ?_⟩
  · intro h
    unfold get_report
    rw [if_neg]
    intro hb
    exact h (List.isPrefixOf_iff_prefix.mp hb)
  · intro h
    unfold get_report
    by_cases hb : base.isPrefixOf (resolvePath base filename) = true
    · rw [if_pos hb, if_neg]
      simp [h]
    · rw [if_neg hb]
  · intro h1 h2
    unfold get_report
    rw [if_pos (List.isPrefixOf_iff_prefix.mpr h1), if_pos h2]
  · intro fs
    unfold get_report
    rw [if_neg (by decide)]
  · intro fs
    unfold get_report
    rw [if_neg (by decide)]

/-- C9 witness: a plain filename inside the directory is served when the
file exists. -/
theorem c9_get_report_witness :
    get_report ["reports"] (fun p => p == ["reports", "a.html"]) "a.html"
      = some (resolvePath ["reports"] "a.html") :=
  (c9_get_report ["reports"] (fun p => p == ["reports", "a.html"]) "a.html").2.2.1
    (by decide) (by decide)
